import Mathlib

/-
Verification of the in-memory append-only log (src/server/log.rs).

The Rust code is shallowly embedded:
- Record { value: Vec<u8>, offset: u64 } becomes a structure over List Nat
  and Nat (the log never computes on byte or offset values, so natural
  numbers model them directly; all u64 values are naturals).
- Log { records: Vec<Record> } becomes a structure over List Record.
- append takes the log by value and returns the updated log together with
  the Result<u64, String> of the Rust function.
- read borrows the log immutably, so it is a pure function of the log; its
  vector indexing is modelled with List.get?, and the whole result is
  wrapped in Option: a none result would correspond to an out-of-bounds
  panic of the Rust indexing, so totality of read is the statement that
  the bounds check makes the indexing safe.
- derive(Clone) on Record becomes Record.clone, a field-by-field copy.
-/

/-- Embeds the Rust struct Record: an opaque byte payload and the offset
assigned by the log. -/
structure Record where
  value : List Nat
  offset : Nat
deriving DecidableEq, Repr

/-- Embeds derive(Clone) on Record: a field-by-field copy. -/
def Record.clone (r : Record) : Record :=
  { value := r.value, offset := r.offset }

/-- Embeds the Rust struct Log: the vector of stored records. -/
structure Log where
  records : List Record
deriving DecidableEq, Repr

/-- Embeds Log::new_log: the empty log. -/
def Log.new_log : Log :=
  { records := [] }

/-- Embeds Log::append: computes the offset as the current length, overwrites
the offset field of the incoming record, pushes it, and returns Ok(offset).
The updated log is returned explicitly because the Rust function mutates
through a unique reference. -/
def Log.append (l : Log) (record : Record) : Log × Except String Nat :=
  let offset : Nat := l.records.length
  let record := { record with offset := offset }
  ({ records := l.records ++ [record] }, Except.ok offset)

/-- Embeds Log::read: bounds check against the current length, then a clone
of the indexed record. The indexing itself is List.get?; a none overall
result would model an out-of-bounds panic. -/
def Log.read (l : Log) (offset : Nat) : Option (Except String Record) :=
  let max_size : Nat := l.records.length
  if offset ≥ max_size then
    some (Except.error "Offset exceeded length of Log")
  else
    (l.records.get? offset).map (fun r => Except.ok r.clone)

/-- An operation against the log API. -/
inductive Op where
  | append (r : Record)
  | read (offset : Nat)

/-- The observable result of one operation. -/
inductive Out where
  | ofAppend (result : Except String Nat)
  | ofRead (result : Option (Except String Record))

/-- One API call as a state transition: append threads the mutated log,
read borrows the log immutably and leaves it untouched. -/
def Log.step (l : Log) : Op → Log × Out
  | Op.append r => ((l.append r).1, Out.ofAppend (l.append r).2)
  | Op.read i => (l, Out.ofRead (l.read i))

/-- A sequence of appends performed in program order, keeping only the
final log. -/
def Log.appendAll (l : Log) (rs : List Record) : Log :=
  rs.foldl (fun acc r => (acc.append r).1) l

/-- The log built by appending the given records, in order, to a fresh log. -/
def buildLog (rs : List Record) : Log :=
  Log.new_log.appendAll rs

/-- The logs reachable from Log.new_log by any sequence of API calls. -/
inductive Reachable : Log → Prop
  | init : Reachable Log.new_log
  | step (l : Log) (op : Op) : Reachable l → Reachable (l.step op).1

/-- The density invariant: every stored record carries as its offset field
its own position in the log. -/
def offsetsDense (l : Log) : Prop :=
  ∀ i r, l.records.get? i = some r → r.offset = i

/-! ### Helper lemmas -/

theorem Record.clone_eq (r : Record) : r.clone = r := by
  cases r; rfl

theorem Log.append_fst_records (l : Log) (r : Record) :
    (l.append r).1.records = l.records ++ [{ r with offset := l.records.length }] := rfl

theorem Log.append_snd (l : Log) (r : Record) :
    (l.append r).2 = Except.ok l.records.length := rfl

/-- The records a run of appends adds on top of a base of the given length:
each incoming record with its offset field overwritten by its final
position. -/
def withOffsets (base : Nat) : List Record → List Record
  | [] => []
  | r :: rs => { r with offset := base } :: withOffsets (base + 1) rs

theorem withOffsets_length (base : Nat) (rs : List Record) :
    (withOffsets base rs).length = rs.length := by
  induction rs generalizing base with
  | nil => rfl
  | cons r rs ih => simp [withOffsets, ih]

theorem withOffsets_get? (rs : List Record) :
    ∀ (base i : Nat),
      (withOffsets base rs).get? i
        = (rs.get? i).map (fun r => { r with offset := base + i }) := by
  induction rs with
  | nil => intro base i; rfl
  | cons r rs ih =>
    intro base i
    cases i with
    | zero => rfl
    | succ i =>
      simp only [withOffsets, List.get?_cons_succ, ih (base + 1) i]
      have h : base + 1 + i = base + (i + 1) := by omega
      rw [h]

theorem Log.appendAll_records (rs : List Record) :
    ∀ (l : Log),
      (l.appendAll rs).records = l.records ++ withOffsets l.records.length rs := by
  induction rs with
  | nil => intro l; simp [Log.appendAll, withOffsets]
  | cons r rs ih =>
    intro l
    show ((l.append r).1.appendAll rs).records = _
    rw [ih]
    simp [Log.append_fst_records, withOffsets]

theorem Log.appendAll_length (l : Log) (rs : List Record) :
    (l.appendAll rs).records.length = l.records.length + rs.length := by
  rw [Log.appendAll_records]
  simp [withOffsets_length]

theorem Log.read_of_lt (l : Log) (i : Nat) (h : i < l.records.length) :
    l.read i = (l.records.get? i).map (fun r => Except.ok r.clone) := by
  simp [Log.read, Nat.not_le.mpr h]

theorem Log.read_of_ge (l : Log) (i : Nat) (h : l.records.length ≤ i) :
    l.read i = some (Except.error "Offset exceeded length of Log") := by
  simp [Log.read, h]

/-! ### Claim theorems -/

/-- C1: for every log built by appending records in order to a fresh log and
every position i below the number of appends, read i succeeds and returns a
record whose payload equals the i-th appended payload byte-for-byte and
whose offset field equals i. -/
theorem read_after_build (rs : List Record) (i : Nat) (h : i < rs.length) :
    (buildLog rs).read i
      = some (Except.ok { value := (rs.get ⟨i, h⟩).value, offset := i }) := by
  have hlen : (buildLog rs).records.length = rs.length := by
    simp [buildLog, Log.appendAll_length, Log.new_log]
  rw [Log.read_of_lt _ _ (by rw [hlen]; exact h)]
  have hrec : (buildLog rs).records = withOffsets 0 rs := by
    simp [buildLog, Log.appendAll_records, Log.new_log]
  rw [hrec, withOffsets_get? rs 0 i, List.get?_eq_get h]
  simp [Record.clone]

/-- Witness for C1 at a concrete two-record log. -/
theorem read_after_build_witness :
    (buildLog [Record.mk [97] 7, Record.mk [98, 99] 0]).read 1
      = some (Except.ok { value := [98, 99], offset := 1 }) :=
  read_after_build [Record.mk [97] 7, Record.mk [98, 99] 0] 1 (by decide)

/-- C2: read v fails with the out-of-range error exactly when v is at least
the current length; in particular every read on a fresh log fails. -/
theorem read_out_of_range_iff (l : Log) (v : Nat) :
    (l.read v = some (Except.error "Offset exceeded length of Log")
        ↔ l.records.length ≤ v)
      ∧ Log.new_log.read v = some (Except.error "Offset exceeded length of Log") := by
  refine ⟨⟨?_, fun h => Log.read_of_ge l v h⟩, Log.read_of_ge Log.new_log v (Nat.zero_le v)⟩
  intro h
  by_contra hlt
  push_neg at hlt
  rw [Log.read_of_lt _ _ hlt, List.get?_eq_get hlt] at h
  simp at h

/-- C3: append returns the pre-append length N, stores the incoming record
with its offset field overwritten by N (whatever the caller supplied), and
grows the log to length N + 1. -/
theorem append_assigns_length (l : Log) (r : Record) :
    (l.append r).2 = Except.ok l.records.length
      ∧ (l.append r).1.records
          = l.records ++ [{ value := r.value, offset := l.records.length }]
      ∧ (l.append r).1.records.length = l.records.length + 1 :=
  ⟨rfl, rfl, by simp [Log.append]⟩

/-- C5: append never takes the error alternative of its Result type: it
always returns Ok, for every log state and every input record. -/
theorem append_never_errors (l : Log) (r : Record) :
    (∃ n, (l.append r).2 = Except.ok n)
      ∧ ∀ e : String, (l.append r).2 ≠ Except.error e := by
  refine ⟨⟨l.records.length, rfl⟩, fun e h => ?_⟩
  simp [Log.append] at h

/-- C6: append only extends the log: the first N stored records are
unchanged, the length grows by one, and position-by-position the old
records are still found where they were, with the new record at position N
and nothing beyond. -/
theorem append_preserves_existing (l : Log) (r : Record) :
    (l.append r).1.records.take l.records.length = l.records
      ∧ (l.append r).1.records.length = l.records.length + 1
      ∧ ∀ i, (l.append r).1.records.get? i
          = if i < l.records.length then l.records.get? i
            else if i = l.records.length
              then some { r with offset := l.records.length }
              else none := by
  refine ⟨?_, by simp [Log.append], ?_⟩
  · rw [Log.append_fst_records]
    simp
  · intro i
    rw [Log.append_fst_records]
    by_cases h1 : i < l.records.length
    · rw [List.get?_append h1, if_pos h1]
    · rw [if_neg h1, List.get?_append_right (Nat.le_of_not_lt h1)]
      by_cases h2 : i = l.records.length
      · rw [if_pos h2, h2]
        simp
      · rw [if_neg h2]
        cases h3 : i - l.records.length with
        | zero => omega
        | succ k => simp

/-- C7: of two appends in program order (any run of appends in between),
the earlier one returns a strictly smaller offset, and two consecutive
appends return offsets that differ by exactly one. -/
theorem append_offsets_monotonic (l : Log) (r1 r2 : Record) (rs : List Record) :
    ∃ o1 o2, (l.append r1).2 = Except.ok o1
      ∧ (((l.append r1).1.appendAll rs).append r2).2 = Except.ok o2
      ∧ o1 < o2
      ∧ ((l.append r1).1.append r2).2 = Except.ok (o1 + 1) := by
  refine ⟨l.records.length, ((l.append r1).1.appendAll rs).records.length,
    rfl, rfl, ?_, ?_⟩
  · rw [Log.appendAll_length, Log.append_fst_records]
    simp
    omega
  · rw [Log.append_snd, Log.append_fst_records]
    simp

/-- C8: read is a non-mutating observation: as a state transition it leaves
the log exactly as it was, and a second read of the same offset on the
resulting state returns the same result as the first. -/
theorem read_pure_and_idempotent (l : Log) (i : Nat) :
    (l.step (Op.read i)).1 = l
      ∧ ((l.step (Op.read i)).1.step (Op.read i)).2 = (l.step (Op.read i)).2 :=
  ⟨rfl, rfl⟩

/-- C9: read hands back an independent copy: overwriting the payload of the
record a successful read returned produces a genuinely different value, yet
the log still stores the original record at that offset and a repeated read
still returns the original record, untouched by the overwrite. -/
theorem read_returns_independent_copy (l : Log) (i : Nat) (r : Record)
    (v : List Nat) (h : l.read i = some (Except.ok r)) (hv : v ≠ r.value) :
    { r with value := v } ≠ r
      ∧ l.read i = some (Except.ok r)
      ∧ l.records.get? i = some r := by
  have hlt : i < l.records.length := by
    by_contra hge
    rw [Log.read_of_ge l i (Nat.le_of_not_lt hge)] at h
    simp at h
  have hget : l.records.get? i = some (l.records.get ⟨i, hlt⟩) := List.get?_eq_get hlt
  have h2 := h
  rw [Log.read_of_lt l i hlt, hget] at h2
  simp only [Option.map_some', Option.some.injEq, Except.ok.injEq, Record.clone_eq] at h2
  exact ⟨fun heq => hv (congrArg Record.value heq), h, by rw [hget, h2]⟩

/-- Witness for C9 on a one-record log, overwriting the payload with [3]. -/
theorem read_returns_independent_copy_witness :
    { Record.mk [1, 2] 0 with value := [3] } ≠ Record.mk [1, 2] 0
      ∧ (Log.mk [Record.mk [1, 2] 0]).read 0 = some (Except.ok (Record.mk [1, 2] 0))
      ∧ (Log.mk [Record.mk [1, 2] 0]).records.get? 0 = some (Record.mk [1, 2] 0) :=
  read_returns_independent_copy (Log.mk [Record.mk [1, 2] 0]) 0
    (Record.mk [1, 2] 0) [3] rfl (by decide)

/-- C10: read is total: on every log and every offset it returns a value
(never the none that would model a panic of the vector indexing), and that
value is either a record or the out-of-range error. -/
theorem read_total (l : Log) (v : Nat) :
    (∃ out, l.read v = some out)
      ∧ (l.read v = some (Except.error "Offset exceeded length of Log")
          ∨ ∃ r, l.read v = some (Except.ok r)) := by
  by_cases h : v < l.records.length
  · rw [Log.read_of_lt l v h, List.get?_eq_get h]
    exact ⟨⟨_, rfl⟩, Or.inr ⟨_, rfl⟩⟩
  · rw [Log.read_of_ge l v (Nat.le_of_not_lt h)]
    exact ⟨⟨_, rfl⟩, Or.inl rfl⟩

/-- Appending preserves the density invariant. -/
theorem offsetsDense_append (l : Log) (r0 : Record) (h : offsetsDense l) :
    offsetsDense (l.append r0).1 := by
  intro i r hir
  rw [Log.append_fst_records] at hir
  by_cases hlt : i < l.records.length
  · rw [List.get?_append hlt] at hir
    exact h i r hir
  · have hle := Nat.le_of_not_lt hlt
    rw [List.get?_append_right hle] at hir
    cases hd : i - l.records.length with
    | zero =>
      rw [hd] at hir
      simp only [List.get?_cons_zero, Option.some.injEq] at hir
      rw [← hir]
      simp only []
      omega
    | succ k =>
      rw [hd] at hir
      simp at hir

/-- C4: every log reachable from a fresh log by any sequence of append and
read operations satisfies the density invariant: the record stored at
position i carries offset field i. -/
theorem reachable_offsets_dense (l : Log) (h : Reachable l) : offsetsDense l := by
  induction h with
  | init =>
    intro i r hir
    simp [Log.new_log] at hir
  | step l2 op _ ih =>
    cases op with
    | append r0 => exact offsetsDense_append l2 r0 ih
    | read j => exact ih

/-- Witness for C4 on the log reached by two appends with caller-supplied
offsets 42 and 9, which end up stored as 0 and 1. -/
theorem reachable_offsets_dense_witness :
    offsetsDense (Log.mk [Record.mk [5] 0, Record.mk [] 1]) :=
  reachable_offsets_dense (Log.mk [Record.mk [5] 0, Record.mk [] 1])
    (Reachable.step ((Log.new_log.step (Op.append (Record.mk [5] 42))).1)
      (Op.append (Record.mk [] 9))
      (Reachable.step Log.new_log (Op.append (Record.mk [5] 42)) Reachable.init))
